import Mathlib

/-!
Shallow embedding of the meshmode core: the mesh element-group data model,
geometric processing (orientations, flips, merging, affine maps) from
meshmode/mesh/processing.py, the discretization layer from
meshmode/discretization/__init__.py, and the gmsh receiver group selection
from meshmode/mesh/io.py.  Arrays are modelled as total functions over Nat
indices together with explicit extents; machine floats are modelled by exact
rationals; fallible code returns Except.
-/

namespace Meshmode

/-- A mesh element group (meshmode.mesh.MeshElementGroup / SimplexElementGroup).
Fields mirror the attributes used by the processing code: polynomial order,
reference dimension, element count, vertices per element, unit-node count,
vertex_indices (nelements x nvertsPerEl, indices into the mesh vertex array),
nodes (ambient x nelements x nunit physical coordinates), unit_nodes
(dim x nunit reference coordinates).  isSimplex records whether the group is a
SimplexElementGroup, which the processing code tests with isinstance. -/
structure ElementGroup where
  order : Nat
  dim : Nat
  nelements : Nat
  nvertsPerEl : Nat
  nunit : Nat
  vertex_indices : Nat → Nat → Nat
  nodes : Nat → Nat → Nat → ℚ
  unit_nodes : Nat → Nat → ℚ
  isSimplex : Bool

/-- A mesh (meshmode.mesh.Mesh): an ambient x nvertices vertex array plus an
ordered list of element groups. -/
structure Mesh where
  ambient : Nat
  nvertices : Nat
  vertices : Nat → Nat → ℚ
  groups : List ElementGroup

/-- Total element count of a mesh (mesh.nelements). -/
def Mesh.nelements (m : Mesh) : Nat :=
  (m.groups.map (·.nelements)).sum

/-- Pair each group with its element_nr_base, the running sum of the element
counts of the preceding groups (the contiguous numbering the Mesh constructor
assigns). -/
def groupsWithElementBases : Nat → List ElementGroup → List (Nat × ElementGroup)
  | _, [] => []
  | base, g :: gs => (base, g) :: groupsWithElementBases (base + g.nelements) gs

/- ===== Discretization layer (meshmode/discretization/__init__.py) ===== -/

/-- A discretization-side element group (ElementGroupBase): holds its mesh
element group, order, node_nr_base, and its unit-node count (the trailing
extent of its unit_nodes array, supplied by the concrete group class). -/
structure DiscrGroup where
  meshElGroup : ElementGroup
  order : Nat
  node_nr_base : Nat
  nunitNodes : Nat

/-- ElementGroupBase.nelements. -/
def DiscrGroup.nelements (g : DiscrGroup) : Nat := g.meshElGroup.nelements

/-- ElementGroupBase.nnodes = nunit_nodes * nelements. -/
def DiscrGroup.nnodes (g : DiscrGroup) : Nat := g.nunitNodes * g.nelements

/-- OrderBasedGroupFactory: carries the order, the isinstance acceptance test
on the mesh group (mesh_group_class), and the unit-node count the concrete
group_class gives a created group as a function of the mesh group and order
(external basis data). -/
structure OrderBasedGroupFactory where
  order : Nat
  accepts : ElementGroup → Bool
  groupUnitNodeCount : ElementGroup → Nat → Nat

/-- OrderBasedGroupFactory.call: type-mismatch error unless the mesh group is
accepted; otherwise builds group_class(mesh_el_group, order, node_nr_base). -/
def OrderBasedGroupFactory.call (fac : OrderBasedGroupFactory)
    (mg : ElementGroup) (node_nr_base : Nat) : Except String DiscrGroup :=
  if fac.accepts mg then
    .ok ⟨mg, fac.order, node_nr_base, fac.groupUnitNodeCount mg fac.order⟩
  else
    .error "only mesh element groups of the supported type are accepted"

/-- Discretization: the mesh, the built groups, and total nnodes. -/
structure Discretization where
  mesh : Mesh
  groups : List DiscrGroup
  nnodes : Nat

/-- The construction loop of Discretization: nnodes starts at the
accumulator, each mesh group is passed to the factory with the current nnodes
as node_nr_base, and nnodes is advanced by the new group's nnodes; a factory
type error aborts construction. -/
def discrGroupsLoop (fac : OrderBasedGroupFactory) :
    Nat → List ElementGroup → Except String (List DiscrGroup × Nat)
  | nnodes, [] => .ok ([], nnodes)
  | nnodes, mg :: mgs =>
    match fac.call mg nnodes with
    | .error e => .error e
    | .ok ng =>
      match discrGroupsLoop fac (nnodes + ng.nnodes) mgs with
      | .error e => .error e
      | .ok (rest, total) => .ok (ng :: rest, total)

/-- Discretization construction: run the loop from 0 over the mesh groups. -/
def Discretization.make (fac : OrderBasedGroupFactory) (mesh : Mesh) :
    Except String Discretization :=
  match discrGroupsLoop fac 0 mesh.groups with
  | .error e => .error e
  | .ok (gs, total) => .ok ⟨mesh, gs, total⟩

/-- The per-group node windows are consecutive starting at the accumulator:
each node_nr_base equals the running total, which then advances by nnodes. -/
def windowsConsecutive : Nat → List DiscrGroup → Prop
  | _, [] => True
  | acc, g :: gs => g.node_nr_base = acc ∧ windowsConsecutive (acc + g.nnodes) gs

/-- Sum of nnodes over a list of discretization groups. -/
def sumNnodes (gs : List DiscrGroup) : Nat := (gs.map (·.nnodes)).sum

theorem discrGroupsLoop_spec (fac : OrderBasedGroupFactory) :
    ∀ (mgs : List ElementGroup) (acc : Nat) (gs : List DiscrGroup) (total : Nat),
    discrGroupsLoop fac acc mgs = .ok (gs, total) →
    windowsConsecutive acc gs ∧ total = acc + sumNnodes gs := by
  intro mgs
  induction mgs with
  | nil =>
    intro acc gs total h
    rw [discrGroupsLoop] at h
    injection h with h
    injection h with h1 h2
    subst h1; subst h2
    simp [windowsConsecutive, sumNnodes]
  | cons mg mgs ih =>
    intro acc gs total h
    rw [discrGroupsLoop] at h
    cases hc : fac.call mg acc with
    | error e => rw [hc] at h; exact absurd h (by simp)
    | ok ng =>
      rw [hc] at h
      dsimp only at h
      cases hr : discrGroupsLoop fac (acc + ng.nnodes) mgs with
      | error e => rw [hr] at h; exact absurd h (by simp)
      | ok p =>
        obtain ⟨rest, tot⟩ := p
        rw [hr] at h
        dsimp only at h
        injection h with h
        injection h with h1 h2
        subst h1; subst h2
        obtain ⟨hcons, htot⟩ := ih (acc + ng.nnodes) rest tot hr
        have hbase : ng.node_nr_base = acc := by
          unfold OrderBasedGroupFactory.call at hc
          by_cases hb : fac.accepts mg = true
          · rw [if_pos hb] at hc; injection hc with hc; rw [← hc]
          · rw [if_neg hb] at hc; exact absurd hc (by simp)
        refine ⟨⟨hbase, hcons⟩, ?_⟩
        rw [htot]
        simp [sumNnodes, Nat.add_assoc]

theorem windowsConsecutive_base_get :
    ∀ (gs : List DiscrGroup) (acc : Nat), windowsConsecutive acc gs →
    ∀ (k : Nat) (hk : k < gs.length),
    (gs.get ⟨k, hk⟩).node_nr_base = acc + sumNnodes (gs.take k) := by
  intro gs
  induction gs with
  | nil => intro acc _ k hk; exact absurd hk (by simp)
  | cons g gs ih =>
    intro acc hcons k hk
    obtain ⟨hbase, hrest⟩ := hcons
    cases k with
    | zero => simpa [sumNnodes] using hbase
    | succ k =>
      have := ih (acc + g.nnodes) hrest k (by simpa using Nat.lt_of_succ_lt_succ hk)
      simpa [sumNnodes, Nat.add_assoc] using this

theorem sumNnodes_take_succ_le :
    ∀ (gs : List DiscrGroup) (i j : Nat) (hij : i < j) (hi : i < gs.length),
    sumNnodes (gs.take i) + (gs.get ⟨i, hi⟩).nnodes ≤ sumNnodes (gs.take j) := by
  intro gs
  induction gs with
  | nil => intro i j _ hi; exact absurd hi (by simp)
  | cons g gsr ih =>
    intro i j hij hi
    cases i with
    | zero =>
      cases j with
      | zero => exact absurd hij (by omega)
      | succ j =>
        simp only [List.take, sumNnodes, List.map_cons, List.sum_cons,
          List.map_nil, List.sum_nil, List.get]
        omega
    | succ i =>
      cases j with
      | zero => exact absurd hij (by omega)
      | succ j =>
        have hi2 : i < gsr.length := by simpa using Nat.lt_of_succ_lt_succ hi
        have := ih i j (by omega) hi2
        simp only [List.take, sumNnodes, List.map_cons, List.sum_cons, List.get] at this ⊢
        omega

theorem windowsConsecutive_cover :
    ∀ (gs : List DiscrGroup) (acc : Nat), windowsConsecutive acc gs →
    ∀ n : Nat, (acc ≤ n ∧ n < acc + sumNnodes gs) ↔
      ∃ g ∈ gs, g.node_nr_base ≤ n ∧ n < g.node_nr_base + g.nnodes := by
  intro gs
  induction gs with
  | nil =>
    intro acc _ n
    simp [sumNnodes]
  | cons g gs ih =>
    intro acc hcons n
    obtain ⟨hbase, hrest⟩ := hcons
    have hih := ih (acc + g.nnodes) hrest n
    constructor
    · intro ⟨h1, h2⟩
      by_cases hn : n < acc + g.nnodes
      · exact ⟨g, List.mem_cons_self g gs, by rw [hbase]; exact ⟨h1, hn⟩⟩
      · have hge : acc + g.nnodes ≤ n := Nat.le_of_not_lt hn
        have h2a : n < acc + g.nnodes + sumNnodes gs := by
          simp only [sumNnodes, List.map_cons, List.sum_cons] at h2 ⊢
          omega
        obtain ⟨g2, hg2mem, hg2⟩ := hih.mp ⟨hge, h2a⟩
        exact ⟨g2, List.mem_cons_of_mem g hg2mem, hg2⟩
    · intro ⟨g2, hg2mem, hle, hlt⟩
      rcases List.mem_cons.mp hg2mem with heq | hmem
      · subst heq
        rw [hbase] at hle hlt
        simp only [sumNnodes, List.map_cons, List.sum_cons]
        omega
      · have := hih.mpr ⟨g2, hmem, hle, hlt⟩
        simp only [sumNnodes, List.map_cons, List.sum_cons] at this ⊢
        omega

/-- CLAIM C2: a successfully built Discretization assigns node_nr_base in
mesh-group order as a running sum, its nnodes is the sum of the group node
counts, the windows are pairwise non-overlapping, and they exactly cover
[0, nnodes). -/
theorem C2_discretization_node_partition
    (fac : OrderBasedGroupFactory) (mesh : Mesh) (d : Discretization)
    (h : Discretization.make fac mesh = .ok d) :
    (∀ (k : Nat) (hk : k < d.groups.length),
        (d.groups.get ⟨k, hk⟩).node_nr_base = sumNnodes (d.groups.take k)) ∧
    d.nnodes = sumNnodes d.groups ∧
    (∀ (i j : Nat) (hi : i < d.groups.length) (hj : j < d.groups.length),
        i ≠ j → ∀ n : Nat,
        ¬(((d.groups.get ⟨i, hi⟩).node_nr_base ≤ n ∧
            n < (d.groups.get ⟨i, hi⟩).node_nr_base + (d.groups.get ⟨i, hi⟩).nnodes) ∧
          ((d.groups.get ⟨j, hj⟩).node_nr_base ≤ n ∧
            n < (d.groups.get ⟨j, hj⟩).node_nr_base + (d.groups.get ⟨j, hj⟩).nnodes))) ∧
    (∀ n : Nat, n < d.nnodes ↔
        ∃ g ∈ d.groups, g.node_nr_base ≤ n ∧ n < g.node_nr_base + g.nnodes) := by
  have hloop : ∃ gs total, discrGroupsLoop fac 0 mesh.groups = .ok (gs, total) ∧
      d = ⟨mesh, gs, total⟩ := by
    unfold Discretization.make at h
    cases hr : discrGroupsLoop fac 0 mesh.groups with
    | error e => rw [hr] at h; exact absurd h (by simp)
    | ok p =>
      obtain ⟨gs, total⟩ := p
      rw [hr] at h
      injection h with h
      exact ⟨gs, total, rfl, h.symm⟩
  obtain ⟨gs, total, hr, hd⟩ := hloop
  obtain ⟨hcons, htot⟩ := discrGroupsLoop_spec fac mesh.groups 0 gs total hr
  subst hd
  refine ⟨?_, ?_, ?_, ?_⟩
  · intro k hk
    simpa using windowsConsecutive_base_get gs 0 hcons k hk
  · simpa using htot
  · intro i j hi hj _hij n hcontra
    obtain ⟨⟨hi1, hi2⟩, ⟨hj1, hj2⟩⟩ := hcontra
    have bi := windowsConsecutive_base_get gs 0 hcons i hi
    have bj := windowsConsecutive_base_get gs 0 hcons j hj
    rcases Nat.lt_or_ge i j with hlt | hge
    · have hstep := sumNnodes_take_succ_le gs i j hlt hi
      rw [bi] at hi2
      rw [bj] at hj1
      simp only [Nat.zero_add] at hi2 hj1
      omega
    · have hlt2 : j < i := by omega
      have hstep := sumNnodes_take_succ_le gs j i hlt2 hj
      rw [bj] at hj2
      rw [bi] at hi1
      simp only [Nat.zero_add] at hj2 hi1
      omega
  · intro n
    have := windowsConsecutive_cover gs 0 hcons n
    simpa [htot] using this

/-- A sample simplex mesh group with one element. -/
def sampleGroup1 : ElementGroup :=
  ⟨1, 2, 1, 3, 3, fun e s => e + s, fun _ _ _ => 0, fun _ _ => 0, true⟩

/-- A sample simplex mesh group with two elements. -/
def sampleGroup2 : ElementGroup :=
  ⟨1, 2, 2, 3, 3, fun e s => e + s, fun _ _ _ => 0, fun _ _ => 0, true⟩

/-- A sample mesh with two groups. -/
def sampleMesh : Mesh := ⟨2, 6, fun _ _ => 0, [sampleGroup1, sampleGroup2]⟩

/-- A sample group factory accepting everything, three unit nodes per group. -/
def sampleFactory : OrderBasedGroupFactory := ⟨1, fun _ => true, fun _ _ => 3⟩

/-- The discretization built from the sample mesh and factory. -/
def sampleDiscr : Discretization :=
  ⟨sampleMesh, [⟨sampleGroup1, 1, 0, 3⟩, ⟨sampleGroup2, 1, 3, 3⟩], 9⟩

/-- Witness for C2 at a concrete discretization. -/
theorem C2_discretization_node_partition_witness :
    Discretization.make sampleFactory sampleMesh = .ok sampleDiscr ∧
    sampleDiscr.nnodes = sumNnodes sampleDiscr.groups :=
  ⟨rfl, (C2_discretization_node_partition sampleFactory sampleMesh sampleDiscr rfl).2.1⟩

/- ===== Merging (meshmode/mesh/processing.py, merge_disjoint_meshes) ===== -/

/-- The concatenated vertex array of the merged mesh: vertex column v falls in
the block of the first mesh whose running vertex range contains it. -/
def concatVertices : List Mesh → Nat → Nat → ℚ
  | [], _, _ => 0
  | m :: ms, d, v =>
    if v < m.nvertices then m.vertices d v else concatVertices ms d (v - m.nvertices)

/-- group.copy(vertex_indices=group.vertex_indices + vert_base). -/
def shiftGroup (base : Nat) (g : ElementGroup) : ElementGroup :=
  { g with vertex_indices := fun e s => g.vertex_indices e s + base }

/-- Pair each mesh with its vertex base, the running sum of the vertex counts
of the preceding meshes (the vert_bases list built in merge_disjoint_meshes). -/
def meshesWithVertBases : Nat → List Mesh → List (Nat × Mesh)
  | _, [] => []
  | base, m :: ms => (base, m) :: meshesWithVertBases (base + m.nvertices) ms

/-- merge_disjoint_meshes: error on an empty list; error unless all meshes
share one ambient dimension; otherwise concatenate the vertex arrays in input
order and append, per mesh then per group, copies of the groups with
vertex_indices shifted by the vertex base of their mesh. -/
def merge_disjoint_meshes (meshes : List Mesh) : Except String Mesh :=
  match meshes with
  | [] => .error "must pass at least one mesh"
  | m0 :: _ =>
    if meshes.all (fun m => m.ambient == m0.ambient) then
      .ok ⟨m0.ambient,
           (meshes.map (·.nvertices)).sum,
           concatVertices meshes,
           ((meshesWithVertBases 0 meshes).map
               (fun bm => bm.2.groups.map (shiftGroup bm.1))).flatten⟩
    else
      .error "all meshes must share the same ambient dimension"

/-- CLAIM C7: merging the empty list is an invalid-argument error, and so is
merging meshes of differing ambient dimension (the specific error raised by
the dimension check; no mesh is built in either case). -/
theorem C7_merge_invalid_arguments (meshes : List Mesh) (m1 m2 : Mesh)
    (h1 : m1 ∈ meshes) (h2 : m2 ∈ meshes) (hne : m1.ambient ≠ m2.ambient) :
    merge_disjoint_meshes ([] : List Mesh) = .error "must pass at least one mesh" ∧
    merge_disjoint_meshes meshes =
      .error "all meshes must share the same ambient dimension" := by
  refine ⟨rfl, ?_⟩
  cases meshes with
  | nil => exact absurd h1 (by simp)
  | cons m0 rest =>
    have hfalse : ((m0 :: rest).all (fun m => m.ambient == m0.ambient)) = false := by
      by_contra hb
      have htrue : ((m0 :: rest).all (fun m => m.ambient == m0.ambient)) = true := by
        cases hall : (m0 :: rest).all (fun m => m.ambient == m0.ambient) with
        | true => rfl
        | false => exact absurd hall hb
      have hx1 : m1.ambient = m0.ambient := by
        simpa using List.all_eq_true.mp htrue m1 h1
      have hx2 : m2.ambient = m0.ambient := by
        simpa using List.all_eq_true.mp htrue m2 h2
      exact hne (hx1.trans hx2.symm)
    simp only [merge_disjoint_meshes]
    rw [hfalse]
    simp

/-- Number of groups in the meshes before index i. -/
def groupCountBefore (meshes : List Mesh) (i : Nat) : Nat :=
  ((meshes.take i).map (·.groups.length)).sum

/-- Number of vertices in the meshes before index i (the vertex base of
mesh i). -/
def vertCountBefore (meshes : List Mesh) (i : Nat) : Nat :=
  ((meshes.take i).map (·.nvertices)).sum

theorem meshesWithVertBases_mem :
    ∀ (meshes : List Mesh) (b0 : Nat) (p : Nat × Mesh),
    p ∈ meshesWithVertBases b0 meshes →
    p.2 ∈ meshes ∧ p.1 + p.2.nvertices ≤ b0 + (meshes.map (·.nvertices)).sum := by
  intro meshes
  induction meshes with
  | nil => intro b0 p h; exact absurd h (by simp [meshesWithVertBases])
  | cons m ms ih =>
    intro b0 p h
    simp only [meshesWithVertBases, List.mem_cons] at h
    rcases h with heq | hmem
    · subst heq
      refine ⟨by simp, ?_⟩
      simp only [List.map_cons, List.sum_cons]
      omega
    · obtain ⟨hm, hb⟩ := ih (b0 + m.nvertices) p hmem
      refine ⟨List.mem_cons_of_mem m hm, ?_⟩
      simp only [List.map_cons, List.sum_cons]
      omega

theorem mergedGroups_length :
    ∀ (meshes : List Mesh) (b0 : Nat),
    (((meshesWithVertBases b0 meshes).map
        (fun bm => bm.2.groups.map (shiftGroup bm.1))).flatten).length =
    (meshes.map (·.groups.length)).sum := by
  intro meshes
  induction meshes with
  | nil => intro b0; simp [meshesWithVertBases]
  | cons m ms ih =>
    intro b0
    simp only [meshesWithVertBases, List.map_cons, List.flatten_cons,
      List.length_append, List.length_map, List.sum_cons]
    rw [ih (b0 + m.nvertices)]

theorem mergedGroups_get :
    ∀ (meshes : List Mesh) (b0 : Nat) (i : Nat) (hi : i < meshes.length)
      (j : Nat) (hj : j < (meshes.get ⟨i, hi⟩).groups.length),
    (((meshesWithVertBases b0 meshes).map
        (fun bm => bm.2.groups.map (shiftGroup bm.1))).flatten)[groupCountBefore meshes i + j]? =
    some (shiftGroup (b0 + vertCountBefore meshes i)
      ((meshes.get ⟨i, hi⟩).groups.get ⟨j, hj⟩)) := by
  intro meshes
  induction meshes with
  | nil => intro b0 i hi; exact absurd hi (by simp)
  | cons m ms ih =>
    intro b0 i hi j hj
    cases i with
    | zero =>
      simp only [meshesWithVertBases, List.map_cons, List.flatten_cons,
        groupCountBefore, vertCountBefore, List.take, List.map_nil,
        List.sum_nil, List.get, Nat.zero_add, Nat.add_zero]
      have hjlen : j < (m.groups.map (shiftGroup b0)).length := by
        simp only [List.length_map]
        simpa using hj
      rw [List.getElem?_append_left hjlen]
      rw [List.getElem?_map]
      rw [List.getElem?_eq_getElem (by simpa using hj)]
      simp [List.get_eq_getElem]
    | succ i =>
      have hi2 : i < ms.length := by simpa using Nat.lt_of_succ_lt_succ hi
      have hj2 : j < (ms.get ⟨i, hi2⟩).groups.length := by
        simpa using hj
      have := ih (b0 + m.nvertices) i hi2 j hj2
      simp only [meshesWithVertBases, List.map_cons, List.flatten_cons,
        groupCountBefore, vertCountBefore, List.take, List.map_cons,
        List.sum_cons, List.get]
      have hskip : (m.groups.map (shiftGroup b0)).length ≤
          m.groups.length + ((ms.take i).map (·.groups.length)).sum + j := by
        simp only [List.length_map]
        omega
      rw [List.getElem?_append_right hskip]
      simp only [List.length_map]
      have hidx : m.groups.length + ((ms.take i).map (·.groups.length)).sum + j
          - m.groups.length = ((ms.take i).map (·.groups.length)).sum + j := by
        omega
      rw [hidx]
      simp only [groupCountBefore, vertCountBefore] at this
      rw [this]
      have : b0 + m.nvertices + ((ms.take i).map (·.nvertices)).sum
          = b0 + (m.nvertices + ((ms.take i).map (·.nvertices)).sum) := by omega
      rw [this]

/-- CLAIM C3: a successful merge returns a mesh whose vertex count is the sum
of the input vertex counts, whose group list is the concatenation of the
input group lists in (mesh order, then original group order) with each group
shifted by its mesh vertex base, and all of whose group vertex indices lie
below the total vertex count whenever the inputs respected their own vertex
counts. -/
theorem C3_merge_disjoint_meshes
    (meshes : List Mesh) (M : Mesh)
    (h : merge_disjoint_meshes meshes = .ok M)
    (hrange : ∀ m ∈ meshes, ∀ g ∈ m.groups, ∀ e < g.nelements,
        ∀ s < g.nvertsPerEl, g.vertex_indices e s < m.nvertices) :
    M.nvertices = (meshes.map (·.nvertices)).sum ∧
    M.groups.length = (meshes.map (·.groups.length)).sum ∧
    (∀ (i : Nat) (hi : i < meshes.length) (j : Nat)
        (hj : j < (meshes.get ⟨i, hi⟩).groups.length),
        M.groups[groupCountBefore meshes i + j]? =
          some (shiftGroup (vertCountBefore meshes i)
            ((meshes.get ⟨i, hi⟩).groups.get ⟨j, hj⟩))) ∧
    (∀ g ∈ M.groups, ∀ e < g.nelements, ∀ s < g.nvertsPerEl,
        g.vertex_indices e s < M.nvertices) := by
  have hM : M = ⟨(meshes.head?.map (·.ambient)).getD 0,
      (meshes.map (·.nvertices)).sum,
      concatVertices meshes,
      ((meshesWithVertBases 0 meshes).map
          (fun bm => bm.2.groups.map (shiftGroup bm.1))).flatten⟩ := by
    cases meshes with
    | nil => exact absurd h (by simp [merge_disjoint_meshes])
    | cons m0 rest =>
      simp only [merge_disjoint_meshes] at h
      by_cases hall : ((m0 :: rest).all (fun m => m.ambient == m0.ambient)) = true
      · rw [if_pos hall] at h
        injection h with h
        simp [← h]
      · rw [if_neg hall] at h
        exact absurd h (by simp)
  subst hM
  refine ⟨rfl, mergedGroups_length meshes 0, ?_, ?_⟩
  · intro i hi j hj
    have := mergedGroups_get meshes 0 i hi j hj
    simpa using this
  · intro g hg e he s hs
    simp only at hg
    rw [List.mem_flatten] at hg
    obtain ⟨l, hl, hgl⟩ := hg
    rw [List.mem_map] at hl
    obtain ⟨bm, hbm, hleq⟩ := hl
    subst hleq
    rw [List.mem_map] at hgl
    obtain ⟨g0, hg0, hgeq⟩ := hgl
    subst hgeq
    obtain ⟨hmmem, hble⟩ := meshesWithVertBases_mem meshes 0 bm hbm
    have hlt : g0.vertex_indices e s < bm.2.nvertices := by
      have he2 : e < g0.nelements := he
      have hs2 : s < g0.nvertsPerEl := hs
      exact hrange bm.2 hmmem g0 hg0 e he2 s hs2
    show g0.vertex_indices e s + bm.1 < (meshes.map (·.nvertices)).sum
    omega

/-- Two sample single-group meshes in ambient dimensions 2 and 3. -/
def sampleMeshDim2 : Mesh := ⟨2, 3, fun _ _ => 0, [sampleGroup1]⟩

/-- A sample mesh of ambient dimension 3. -/
def sampleMeshDim3 : Mesh := ⟨3, 3, fun _ _ => 0, [sampleGroup1]⟩

/-- Witness for C7 at a concrete dimension-inconsistent pair. -/
theorem C7_merge_invalid_arguments_witness :
    merge_disjoint_meshes ([] : List Mesh) = .error "must pass at least one mesh" ∧
    merge_disjoint_meshes [sampleMeshDim2, sampleMeshDim3] =
      .error "all meshes must share the same ambient dimension" :=
  C7_merge_invalid_arguments [sampleMeshDim2, sampleMeshDim3]
    sampleMeshDim2 sampleMeshDim3
    (by simp) (by simp) (by decide)

/-- The merge of two copies of the sample two-dimensional mesh. -/
def mergedSample : Mesh :=
  ⟨2, ([sampleMeshDim2, sampleMeshDim2].map (·.nvertices)).sum,
   concatVertices [sampleMeshDim2, sampleMeshDim2],
   ((meshesWithVertBases 0 [sampleMeshDim2, sampleMeshDim2]).map
       (fun bm => bm.2.groups.map (shiftGroup bm.1))).flatten⟩

/-- Witness for C3 at a concrete pair of meshes. -/
theorem C3_merge_disjoint_meshes_witness :
    merge_disjoint_meshes [sampleMeshDim2, sampleMeshDim2] = .ok mergedSample ∧
    mergedSample.nvertices = ([sampleMeshDim2, sampleMeshDim2].map (·.nvertices)).sum :=
  ⟨rfl,
   (C3_merge_disjoint_meshes [sampleMeshDim2, sampleMeshDim2] mergedSample rfl
     (by
       intro m hm g hg e he s hs
       have hm2 : m = sampleMeshDim2 := by
         rcases List.mem_cons.mp hm with h | h
         · exact h
         · rcases List.mem_cons.mp h with h2 | h2
           · exact h2
           · exact absurd h2 (List.not_mem_nil m)
       subst hm2
       have hg2 : g = sampleGroup1 := by
         rcases List.mem_cons.mp hg with h | h
         · exact h
         · exact absurd h (List.not_mem_nil g)
       subst hg2
       simp only [sampleGroup1, sampleMeshDim2] at he hs ⊢
       omega)).1⟩

/- ===== Affine maps (meshmode/mesh/processing.py, affine_map) ===== -/

/-- affine_map: applies x to A x + b to the vertex array (einsum ij,jv->iv
plus broadcast b) and, per group, to every physical node (einsum ij,jen->ien
plus broadcast b); all other fields are carried through. -/
def affine_map (mesh : Mesh) (A : Nat → Nat → ℚ) (b : Nat → ℚ) : Mesh :=
  { mesh with
    vertices := fun i v =>
      (∑ j ∈ Finset.range mesh.ambient, A i j * mesh.vertices j v) + b i,
    groups := mesh.groups.map (fun g =>
      { g with nodes := fun i e n =>
          (∑ j ∈ Finset.range mesh.ambient, A i j * g.nodes j e n) + b i }) }

/-- The matrix product A2 A1 with inner dimension n. -/
def matMulQ (n : Nat) (A2 A1 : Nat → Nat → ℚ) : Nat → Nat → ℚ :=
  fun i k => ∑ j ∈ Finset.range n, A2 i j * A1 j k

/-- The vector A2 b1 + b2 with inner dimension n. -/
def matVecAddQ (n : Nat) (A2 : Nat → Nat → ℚ) (b1 b2 : Nat → ℚ) : Nat → ℚ :=
  fun i => (∑ j ∈ Finset.range n, A2 i j * b1 j) + b2 i

theorem affine_compose_entry (n : Nat) (A1 A2 : Nat → Nat → ℚ) (b1 b2 : Nat → ℚ)
    (x : Nat → ℚ) (i : Nat) :
    (∑ j ∈ Finset.range n, A2 i j * ((∑ k ∈ Finset.range n, A1 j k * x k) + b1 j))
      + b2 i =
    (∑ k ∈ Finset.range n, matMulQ n A2 A1 i k * x k) + matVecAddQ n A2 b1 b2 i := by
  simp only [matMulQ, matVecAddQ]
  have h1 : ∀ j ∈ Finset.range n,
      A2 i j * ((∑ k ∈ Finset.range n, A1 j k * x k) + b1 j) =
      (∑ k ∈ Finset.range n, A2 i j * A1 j k * x k) + A2 i j * b1 j := by
    intro j _
    rw [mul_add, Finset.mul_sum]
    congr 1
    exact Finset.sum_congr rfl (fun k _ => by ring)
  rw [Finset.sum_congr rfl h1, Finset.sum_add_distrib]
  rw [Finset.sum_comm]
  have h2 : ∀ k ∈ Finset.range n,
      (∑ j ∈ Finset.range n, A2 i j * A1 j k) * x k =
      ∑ j ∈ Finset.range n, A2 i j * A1 j k * x k := by
    intro k _
    rw [Finset.sum_mul]
  rw [Finset.sum_congr rfl h2]
  ring

/-- CLAIM C9: over exact arithmetic, composing two affine maps equals the
single affine map with matrix A2 A1 and offset A2 b1 + b2, as meshes (vertex
array, and every group's node array, all other fields untouched). -/
theorem C9_affine_map_composition (mesh : Mesh) (A1 A2 : Nat → Nat → ℚ)
    (b1 b2 : Nat → ℚ) :
    affine_map (affine_map mesh A1 b1) A2 b2 =
      affine_map mesh (matMulQ mesh.ambient A2 A1)
        (matVecAddQ mesh.ambient A2 b1 b2) := by
  unfold affine_map
  cases mesh with
  | mk ambient nvertices vertices groups =>
    simp only [Mesh.mk.injEq, List.map_map]
    refine ⟨trivial, trivial, ?_, ?_⟩
    · funext i v
      exact affine_compose_entry ambient A1 A2 b1 b2 (fun k => vertices k v) i
    · apply List.map_congr_left
      intro g _
      simp only [Function.comp]
      congr 1
      funext i e n
      exact affine_compose_entry ambient A1 A2 b1 b2 (fun k => g.nodes k e n) i

/- ===== view (meshmode/discretization/__init__.py, ElementGroupBase.view) == -/

/-- Row-major reshape of a flat buffer into nel rows of nunit entries, as
numpy reshape lays the data out once the size check has passed. -/
def reshapeRows : Nat → Nat → List ℚ → List (List ℚ)
  | 0, _, _ => []
  | nel + 1, nunit, l => l.take nunit :: reshapeRows nel nunit (l.drop nunit)

/-- ElementGroupBase.view on a buffer whose trailing axis is modelled as a
list: slice [node_nr_base, node_nr_base + nnodes) with numpy clipping
semantics, then reshape to (nelements, nunit_nodes); reshape raises a shape
error (None here) exactly when the slice size differs from the target size. -/
def DiscrGroup.view (g : DiscrGroup) (buf : List ℚ) : Option (List (List ℚ)) :=
  let slice := (buf.drop g.node_nr_base).take (g.nunitNodes * g.nelements)
  if slice.length = g.nelements * g.nunitNodes then
    some (reshapeRows g.nelements g.nunitNodes slice)
  else
    none

/-- Counterexample to CLAIM C4: in the sample discretization (total_nnodes 9)
the first group's view of a length-3 buffer succeeds, although 3 is not
total_nnodes; view does not fail whenever the trailing dimension differs from
total_nnodes. -/
theorem C4_view_counterexample :
    (sampleDiscr.groups[0]?.map
        (fun g => (DiscrGroup.view g ([0, 0, 0] : List ℚ)).isSome)) = some true ∧
    ([0, 0, 0] : List ℚ).length ≠ sampleDiscr.nnodes := by
  refine ⟨rfl, ?_⟩
  intro h
  simp only [sampleDiscr, List.length_cons, List.length_nil] at h
  omega

theorem reshapeRows_flatten :
    ∀ (nel nunit : Nat) (l : List ℚ), l.length = nel * nunit →
    (reshapeRows nel nunit l).flatten = l ∧
    (reshapeRows nel nunit l).length = nel ∧
    ∀ r ∈ reshapeRows nel nunit l, r.length = nunit := by
  intro nel
  induction nel with
  | zero =>
    intro nunit l hl
    simp only [Nat.zero_mul] at hl
    have : l = [] := List.eq_nil_of_length_eq_zero hl
    subst this
    simp [reshapeRows]
  | succ nel ih =>
    intro nunit l hl
    have hlen : (l.drop nunit).length = nel * nunit := by
      rw [List.length_drop, hl, Nat.succ_mul]
      omega
    obtain ⟨hfl, hln, hrows⟩ := ih nunit (l.drop nunit) hlen
    have htake : (l.take nunit).length = nunit := by
      rw [List.length_take, hl, Nat.succ_mul]
      omega
    refine ⟨?_, ?_, ?_⟩
    · simp only [reshapeRows, List.flatten_cons, hfl]
      exact List.take_append_drop nunit l
    · simp [reshapeRows, hln]
    · intro r hr
      simp only [reshapeRows, List.mem_cons] at hr
      rcases hr with h | h
      · rw [h]; exact htake
      · exact hrows r h

/-- CLAIM C4 amended: view fails with a shape error exactly when the buffer
is too short to cover the window [node_nr_base, node_nr_base + nnodes) of a
group with nnodes > 0; whenever it succeeds (in particular on any longer
buffer) it returns exactly the untruncated, unpadded group window reshaped to
(nelements, nunit_nodes). -/
theorem C4_view_shape (g : DiscrGroup) (buf : List ℚ) :
    (DiscrGroup.view g buf = none ↔
      0 < g.nnodes ∧ buf.length < g.node_nr_base + g.nnodes) ∧
    (∀ rows, DiscrGroup.view g buf = some rows →
      rows.flatten = (buf.drop g.node_nr_base).take g.nnodes ∧
      rows.length = g.nelements ∧ ∀ r ∈ rows, r.length = g.nunitNodes) := by
  have hslice : ((buf.drop g.node_nr_base).take (g.nunitNodes * g.nelements)).length =
      min (buf.length - g.node_nr_base) (g.nunitNodes * g.nelements) := by
    rw [List.length_take, List.length_drop]
    omega
  constructor
  · unfold DiscrGroup.view
    constructor
    · intro h
      by_cases hc : ((buf.drop g.node_nr_base).take (g.nunitNodes * g.nelements)).length
          = g.nelements * g.nunitNodes
      · rw [if_pos hc] at h; exact absurd h (by simp)
      · rw [if_neg hc] at h
        rw [hslice] at hc
        unfold DiscrGroup.nnodes
        have hcm : g.nelements * g.nunitNodes = g.nunitNodes * g.nelements :=
          Nat.mul_comm _ _
        constructor
        · by_contra hz
          exact hc (by omega)
        · by_contra hz
          exact hc (by omega)
    · intro ⟨hpos, hshort⟩
      have hc : ((buf.drop g.node_nr_base).take (g.nunitNodes * g.nelements)).length
          ≠ g.nelements * g.nunitNodes := by
        rw [hslice]
        unfold DiscrGroup.nnodes at hpos hshort
        have hcm : g.nelements * g.nunitNodes = g.nunitNodes * g.nelements :=
          Nat.mul_comm _ _
        omega
      rw [if_neg hc]
  · intro rows h
    unfold DiscrGroup.view at h
    by_cases hc : ((buf.drop g.node_nr_base).take (g.nunitNodes * g.nelements)).length
        = g.nelements * g.nunitNodes
    · rw [if_pos hc] at h
      injection h with h
      obtain ⟨hfl, hln, hrows⟩ := reshapeRows_flatten g.nelements g.nunitNodes
        ((buf.drop g.node_nr_base).take (g.nunitNodes * g.nelements)) hc
      subst h
      refine ⟨?_, hln, hrows⟩
      rw [hfl]
      unfold DiscrGroup.nnodes
      rfl
    · rw [if_neg hc] at h
      exact absurd h (by simp)

/-- Witness for C4 amended at a concrete group and buffer. -/
theorem C4_view_shape_witness :
    DiscrGroup.view ⟨sampleGroup1, 1, 0, 3⟩ ([1, 2, 3] : List ℚ) = some [[1, 2, 3]] ∧
    ([[1, 2, 3]] : List (List ℚ)).flatten =
      (([1, 2, 3] : List ℚ).drop 0).take (DiscrGroup.nnodes ⟨sampleGroup1, 1, 0, 3⟩) :=
  ⟨rfl, ((C4_view_shape ⟨sampleGroup1, 1, 0, 3⟩ [1, 2, 3]).2 [[1, 2, 3]] rfl).1⟩

/- ===== Orientations (meshmode/mesh/processing.py) ===== -/

/-- Spanning vector ispan of element e: vertex (ispan+1) minus vertex 0 of
the element, read through vertex_indices from the mesh vertex array. -/
def spanningVector (mesh : Mesh) (g : ElementGroup) (e idim ispan : Nat) : ℚ :=
  mesh.vertices idim (g.vertex_indices e (ispan + 1)) -
    mesh.vertices idim (g.vertex_indices e 0)

/-- Sign factor of the pseudoscalar contraction (outer.I | outer).as_scalar
for the negated wedge of n spanning vectors in an n-dimensional Euclidean
space: -(-1)^(n(n-1)/2). -/
def gaContractionSign (n : Nat) : ℚ := -((-1 : ℚ) ^ (n * (n - 1) / 2))

/-- The per-element signed-volume value the geometric-algebra code computes:
for nspan = nvertsPerEl - 1 spanning vectors in an ambient space of the same
dimension, the wedge v1 wedge ... wedge vn is det [v1 ... vn] times the unit
pseudoscalar, and the contraction against the pseudoscalar contributes the
fixed sign above. -/
def orientationValue (mesh : Mesh) (g : ElementGroup) (e : Nat) : ℚ :=
  gaContractionSign (g.nvertsPerEl - 1) *
    (Matrix.of (fun i j : Fin (g.nvertsPerEl - 1) =>
        spanningVector mesh g e (i : Nat) (j : Nat))).det

/-- find_volume_mesh_element_group_orientation: NotImplementedError on any
group that is not a SimplexElementGroup, otherwise the per-element signed
volumes. -/
def find_volume_mesh_element_group_orientation (mesh : Mesh) (g : ElementGroup) :
    Except String (Nat → ℚ) :=
  if g.isSimplex then
    .ok (fun e => orientationValue mesh g e)
  else
    .error "finding element orientations only supported on exclusively SimplexElementGroup-based meshes"

/-- Write vals into the window [base, base + n) of result, leaving the rest
of the global array untouched (result_grp_view[:] = ...). -/
def writeWindow (result : Nat → Option ℚ) (base n : Nat) (vals : Nat → Option ℚ) :
    Nat → Option ℚ :=
  fun k => if base ≤ k ∧ k < base + n then vals (k - base) else result k

/-- The group loop of find_volume_mesh_element_orientations: per group, in
tolerant mode an unsupported group writes not-a-number sentinels (None here)
into its element window instead of failing, a supported group writes its
(never-sentinel, hence the passing assert) values; in strict mode an
unsupported group raises.  Over exact rationals a supported group can never
produce a sentinel, so the assert on the supported branch always passes. -/
def orientationsGo (mesh : Mesh) (tolerate : Bool) :
    List (Nat × ElementGroup) → (Nat → Option ℚ) → Except String (Nat → Option ℚ)
  | [], result => .ok result
  | (base, g) :: rest, result =>
    match find_volume_mesh_element_group_orientation mesh g with
    | .error e =>
      if tolerate then
        orientationsGo mesh tolerate rest
          (writeWindow result base g.nelements (fun _ => none))
      else
        .error e
    | .ok vals =>
      orientationsGo mesh tolerate rest
        (writeWindow result base g.nelements (fun k => some (vals k)))

/-- find_volume_mesh_element_orientations: run the loop over the groups with
their element_nr_base offsets, starting from an uninitialized (all-sentinel)
np.empty result array. -/
def find_volume_mesh_element_orientations (mesh : Mesh) (tolerate : Bool) :
    Except String (Nat → Option ℚ) :=
  orientationsGo mesh tolerate (groupsWithElementBases 0 mesh.groups) (fun _ => none)

theorem orientationsGo_preserves_below (mesh : Mesh) (tol : Bool) :
    ∀ (gs : List ElementGroup) (b0 : Nat) (result r : Nat → Option ℚ),
    orientationsGo mesh tol (groupsWithElementBases b0 gs) result = .ok r →
    ∀ k, k < b0 → r k = result k := by
  intro gs
  induction gs with
  | nil =>
    intro b0 result r h k _
    simp only [groupsWithElementBases, orientationsGo] at h
    injection h with h
    rw [← h]
  | cons g gsr ih =>
    intro b0 result r h k hk
    simp only [groupsWithElementBases, orientationsGo] at h
    cases ho : find_volume_mesh_element_group_orientation mesh g with
    | error e =>
      rw [ho] at h
      dsimp only at h
      cases tol with
      | false => simp at h
      | true =>
        simp only [if_true] at h
        have := ih (b0 + g.nelements) _ r h k (by omega)
        rw [this]
        unfold writeWindow
        rw [if_neg (by omega)]
    | ok vals =>
      rw [ho] at h
      dsimp only at h
      have := ih (b0 + g.nelements) _ r h k (by omega)
      rw [this]
      unfold writeWindow
      rw [if_neg (by omega)]

theorem orientationsGo_window (mesh : Mesh) :
    ∀ (gs : List ElementGroup) (b0 : Nat) (result r : Nat → Option ℚ),
    orientationsGo mesh true (groupsWithElementBases b0 gs) result = .ok r →
    ∀ p ∈ groupsWithElementBases b0 gs, ∀ e < p.2.nelements,
    r (p.1 + e) =
      match find_volume_mesh_element_group_orientation mesh p.2 with
      | .error _ => none
      | .ok vals => some (vals e) := by
  intro gs
  induction gs with
  | nil =>
    intro b0 result r _ p hp
    exact absurd hp (by simp [groupsWithElementBases])
  | cons g gsr ih =>
    intro b0 result r h p hp e he
    simp only [groupsWithElementBases, List.mem_cons] at hp
    simp only [groupsWithElementBases, orientationsGo] at h
    cases ho : find_volume_mesh_element_group_orientation mesh g with
    | error msg =>
      rw [ho] at h
      dsimp only at h
      simp only [if_true] at h
      rcases hp with heq | hmem
      · subst heq
        simp only at he ⊢
        have hpres := orientationsGo_preserves_below mesh true gsr (b0 + g.nelements)
          _ r h (b0 + e) (by omega)
        rw [hpres, ho]
        unfold writeWindow
        rw [if_pos (by omega)]
      · exact ih (b0 + g.nelements) _ r h p hmem e he
    | ok vals =>
      rw [ho] at h
      dsimp only at h
      rcases hp with heq | hmem
      · subst heq
        simp only at he ⊢
        have hpres := orientationsGo_preserves_below mesh true gsr (b0 + g.nelements)
          _ r h (b0 + e) (by omega)
        rw [hpres, ho]
        unfold writeWindow
        rw [if_pos (by omega)]
        simp only [Nat.add_sub_cancel_left]
      · exact ih (b0 + g.nelements) _ r h p hmem e he

/-- CLAIM C6: the per-group orientation routine raises an unsupported error
on any non-simplex group; with tolerate_unimplemented_checks=True the
mesh-level routine fills the non-simplex group's element window of the global
result with not-a-number sentinels, and every simplex (supported) group's
window carries actual (never-sentinel) orientation values, as the assert in
the implementation demands. -/
theorem C6_orientation_error_handling (mesh : Mesh) (g : ElementGroup) (base : Nat)
    (hmem : (base, g) ∈ groupsWithElementBases 0 mesh.groups)
    (hg : g.isSimplex = false)
    (r : Nat → Option ℚ)
    (hr : find_volume_mesh_element_orientations mesh true = .ok r) :
    find_volume_mesh_element_group_orientation mesh g =
      .error "finding element orientations only supported on exclusively SimplexElementGroup-based meshes" ∧
    (∀ e < g.nelements, r (base + e) = none) ∧
    (∀ p ∈ groupsWithElementBases 0 mesh.groups, p.2.isSimplex = true →
      ∀ e < p.2.nelements, r (p.1 + e) = some (orientationValue mesh p.2 e)) := by
  have herr : find_volume_mesh_element_group_orientation mesh g =
      .error "finding element orientations only supported on exclusively SimplexElementGroup-based meshes" := by
    unfold find_volume_mesh_element_group_orientation
    rw [hg]
    simp
  unfold find_volume_mesh_element_orientations at hr
  refine ⟨herr, ?_, ?_⟩
  · intro e he
    have := orientationsGo_window mesh mesh.groups 0 _ r hr (base, g) hmem e he
    rw [herr] at this
    exact this
  · intro p hp hsimp e he
    have := orientationsGo_window mesh mesh.groups 0 _ r hr p hp e he
    have hok : find_volume_mesh_element_group_orientation mesh p.2 =
        .ok (fun e => orientationValue mesh p.2 e) := by
      unfold find_volume_mesh_element_group_orientation
      rw [hsimp]
      simp
    rw [hok] at this
    exact this

/-- A non-simplex sample group. -/
def sampleGroupNS : ElementGroup :=
  ⟨1, 2, 1, 4, 4, fun e s => e + s, fun _ _ _ => 0, fun _ _ => 0, false⟩

/-- A mesh whose single group is not a simplex group. -/
def sampleMeshNS : Mesh := ⟨2, 4, fun _ _ => 0, [sampleGroupNS]⟩

/-- Witness for C6: on the non-simplex sample mesh, tolerant mode succeeds
and the sentinel is written at global element index 0. -/
theorem C6_orientation_error_handling_witness :
    sampleGroupNS.isSimplex = false ∧
    find_volume_mesh_element_orientations sampleMeshNS true =
      .ok (writeWindow (fun _ => none) 0 sampleGroupNS.nelements (fun _ => none)) ∧
    writeWindow (fun _ => none) 0 sampleGroupNS.nelements (fun _ => none) 0 = none :=
  ⟨rfl, rfl,
   (C6_orientation_error_handling sampleMeshNS sampleGroupNS 0
      (by simp [groupsWithElementBases, sampleMeshNS]) rfl
      (writeWindow (fun _ => none) 0 sampleGroupNS.nelements (fun _ => none))
      rfl).2.1 0 (by norm_num [sampleGroupNS])⟩

/- ===== Flips (meshmode/mesh/processing.py) ===== -/

/-- Exact-arithmetic involution of an n x n matrix: F F equals the identity.
This is the content of the assert la.norm(flip_matrix . flip_matrix -
eye) < 1e-13 in flip_simplex_element_group. -/
def isInvolutory (n : Nat) (F : Nat → Nat → ℚ) : Prop :=
  ∀ i < n, ∀ j < n,
    (∑ k ∈ Finset.range n, F i k * F k j) = if i = j then (1 : ℚ) else 0

/-- Executable form of the involution assert. -/
def isInvolutoryB (n : Nat) (F : Nat → Nat → ℚ) : Bool :=
  (List.range n).all (fun i => (List.range n).all (fun j =>
    ((List.range n).map (fun k => F i k * F k j)).sum ==
      if i = j then (1 : ℚ) else 0))

theorem listSum_eq_finsetSum (n : Nat) (f : Nat → ℚ) :
    ((List.range n).map f).sum = ∑ k ∈ Finset.range n, f k := by
  induction n with
  | zero => simp
  | succ n ih =>
    rw [List.range_succ, Finset.sum_range_succ, List.map_append, List.sum_append]
    simp [ih]

theorem isInvolutoryB_iff (n : Nat) (F : Nat → Nat → ℚ) :
    isInvolutoryB n F = true ↔ isInvolutory n F := by
  unfold isInvolutoryB isInvolutory
  simp only [List.all_eq_true, List.mem_range, beq_iff_eq, listSum_eq_finsetSum]

/-- flip_simplex_element_group.  The flip matrix construction (unit nodes to
barycentric, swap of the first two barycentric coordinates, back to unit
nodes, resampling matrix from the external basis library, snap of entries
below 1e-15 to zero) is the external pure function flipMat of (dim, order,
unit_nodes).  The function requires a SimplexElementGroup, asserts the flip
matrix is involutory before use, swaps the first two vertex-index columns of
flagged elements, and resamples the node coordinates of exactly the flagged
elements; the returned group keeps order and unit_nodes.  The vertices
argument is accepted and unused, as in the source. -/
def flip_simplex_element_group (flipMat : Nat → Nat → (Nat → Nat → ℚ) → Nat → Nat → ℚ)
    (vertices : Nat → Nat → ℚ) (grp : ElementGroup) (grp_flip_flags : Nat → Bool) :
    Except String ElementGroup :=
  if grp.isSimplex then
    if isInvolutoryB grp.nunit (flipMat grp.dim grp.order grp.unit_nodes) then
      .ok { grp with
        vertex_indices := fun e s =>
          if grp_flip_flags e then
            if s = 0 then grp.vertex_indices e 1
            else if s = 1 then grp.vertex_indices e 0
            else grp.vertex_indices e s
          else grp.vertex_indices e s,
        nodes := fun d e i =>
          if grp_flip_flags e then
            ∑ j ∈ Finset.range grp.nunit,
              flipMat grp.dim grp.order grp.unit_nodes i j * grp.nodes d e j
          else grp.nodes d e i }
    else
      .error "flip matrix is not involutory"
  else
    .error "flips only supported on exclusively SimplexElementGroup-based meshes"

/-- The group loop of perform_flips: restrict the global flip mask to the
element window of each group; a group with at least one flagged element is
flipped, the rest pass through as plain copies. -/
def performFlipsGo (flipMat : Nat → Nat → (Nat → Nat → ℚ) → Nat → Nat → ℚ)
    (vertices : Nat → Nat → ℚ) (flags : Nat → Bool) :
    List (Nat × ElementGroup) → Except String (List ElementGroup)
  | [] => .ok []
  | (base, g) :: rest =>
    match (if (List.range g.nelements).any (fun e => flags (base + e)) then
             flip_simplex_element_group flipMat vertices g
               (fun e => decide (e < g.nelements) && flags (base + e))
           else .ok g) with
    | .error e => .error e
    | .ok ng =>
      match performFlipsGo flipMat vertices flags rest with
      | .error e => .error e
      | .ok ngs => .ok (ng :: ngs)

/-- perform_flips: run the group loop with the element_nr_base offsets and
rebuild the Mesh from the new groups over the same vertex array. -/
def perform_flips (flipMat : Nat → Nat → (Nat → Nat → ℚ) → Nat → Nat → ℚ)
    (mesh : Mesh) (flip_flags : Nat → Bool) : Except String Mesh :=
  match performFlipsGo flipMat mesh.vertices flip_flags
      (groupsWithElementBases 0 mesh.groups) with
  | .error e => .error e
  | .ok gs => .ok { mesh with groups := gs }

theorem involutory_double_apply (n : Nat) (F : Nat → Nat → ℚ)
    (hF : isInvolutory n F) (x : Nat → ℚ) (i : Nat) (hi : i < n) :
    (∑ j ∈ Finset.range n, F i j * (∑ k ∈ Finset.range n, F j k * x k)) = x i := by
  have h1 : ∀ j ∈ Finset.range n,
      F i j * (∑ k ∈ Finset.range n, F j k * x k) =
      ∑ k ∈ Finset.range n, F i j * F j k * x k := by
    intro j _
    rw [Finset.mul_sum]
    exact Finset.sum_congr rfl (fun k _ => by ring)
  rw [Finset.sum_congr rfl h1, Finset.sum_comm]
  have h2 : ∀ k ∈ Finset.range n,
      (∑ j ∈ Finset.range n, F i j * F j k * x k) =
      (if i = k then (1 : ℚ) else 0) * x k := by
    intro k hk
    rw [← Finset.sum_mul]
    congr 1
    have h3 : (∑ j ∈ Finset.range n, F i j * F j k) = if i = k then (1 : ℚ) else 0 :=
      hF i hi k (Finset.mem_range.mp hk)
    exact h3
  rw [Finset.sum_congr rfl h2]
  simp only [ite_mul, one_mul, zero_mul]
  rw [Finset.sum_ite_eq]
  simp [Finset.mem_range.mpr hi]

/-- CLAIM C8: a successful flip leaves every non-flagged element's
vertex-index row and node coordinates identical to the input group's, and
carries order, unit nodes and the element/node extents through unchanged
(the input group itself is untouched: the operation builds a new group). -/
theorem C8_flip_frame_effect
    (flipMat : Nat → Nat → (Nat → Nat → ℚ) → Nat → Nat → ℚ)
    (vertices : Nat → Nat → ℚ) (g : ElementGroup) (flags : Nat → Bool)
    (g2 : ElementGroup)
    (h : flip_simplex_element_group flipMat vertices g flags = .ok g2) :
    (∀ e, flags e = false →
      (∀ s, g2.vertex_indices e s = g.vertex_indices e s) ∧
      (∀ d i, g2.nodes d e i = g.nodes d e i)) ∧
    g2.order = g.order ∧ g2.nelements = g.nelements ∧
    g2.nunit = g.nunit ∧ g2.unit_nodes = g.unit_nodes := by
  unfold flip_simplex_element_group at h
  by_cases hs : g.isSimplex = true
  · rw [if_pos hs] at h
    by_cases hinv : isInvolutoryB g.nunit (flipMat g.dim g.order g.unit_nodes) = true
    · rw [if_pos hinv] at h
      injection h with h
      subst h
      refine ⟨?_, rfl, rfl, rfl, rfl⟩
      intro e hef
      constructor
      · intro s
        simp only [hef]
        rfl
      · intro d i
        simp only [hef]
        rfl
    · rw [if_neg hinv] at h
      exact absurd h (by simp)
  · rw [if_neg hs] at h
    exact absurd h (by simp)

/-- On a simplex group with an involutory flip matrix, the flip succeeds and
its result is the expected record: metadata carried through, nodes resampled
on exactly the flagged elements. -/
theorem flip_on_simplex_ok
    (flipMat : Nat → Nat → (Nat → Nat → ℚ) → Nat → Nat → ℚ)
    (vertices : Nat → Nat → ℚ) (g : ElementGroup) (gf : Nat → Bool)
    (hs : g.isSimplex = true)
    (hinv : isInvolutory g.nunit (flipMat g.dim g.order g.unit_nodes)) :
    ∃ ng, flip_simplex_element_group flipMat vertices g gf = .ok ng ∧
      ng.order = g.order ∧ ng.dim = g.dim ∧ ng.nelements = g.nelements ∧
      ng.nunit = g.nunit ∧ ng.unit_nodes = g.unit_nodes ∧
      ng.isSimplex = g.isSimplex ∧
      (∀ d e i, ng.nodes d e i =
        if gf e then
          ∑ j ∈ Finset.range g.nunit,
            flipMat g.dim g.order g.unit_nodes i j * g.nodes d e j
        else g.nodes d e i) := by
  refine ⟨{ g with
      vertex_indices := fun e s =>
        if gf e then
          if s = 0 then g.vertex_indices e 1
          else if s = 1 then g.vertex_indices e 0
          else g.vertex_indices e s
        else g.vertex_indices e s,
      nodes := fun d e i =>
        if gf e then
          ∑ j ∈ Finset.range g.nunit,
            flipMat g.dim g.order g.unit_nodes i j * g.nodes d e j
        else g.nodes d e i }, ?_, rfl, rfl, rfl, rfl, rfl, rfl,
      fun d e i => rfl⟩
  unfold flip_simplex_element_group
  rw [if_pos hs, if_pos ((isInvolutoryB_iff g.nunit
    (flipMat g.dim g.order g.unit_nodes)).mpr hinv)]

theorem flip_succeeded_simplex
    (flipMat : Nat → Nat → (Nat → Nat → ℚ) → Nat → Nat → ℚ)
    (vertices : Nat → Nat → ℚ) (g : ElementGroup) (gf : Nat → Bool)
    (ng : ElementGroup)
    (h : flip_simplex_element_group flipMat vertices g gf = .ok ng) :
    g.isSimplex = true ∧
    isInvolutory g.nunit (flipMat g.dim g.order g.unit_nodes) := by
  by_cases hs : g.isSimplex = true
  · refine ⟨hs, ?_⟩
    rw [← isInvolutoryB_iff]
    by_contra hninv
    unfold flip_simplex_element_group at h
    rw [if_pos hs, if_neg hninv] at h
    exact absurd h (by simp)
  · exfalso
    unfold flip_simplex_element_group at h
    rw [if_neg hs] at h
    exact absurd h (by simp)

/-- Flipping a group again with the same flags succeeds and restores the
node coordinates (within the node extent) and the element count. -/
theorem flip_twice_restores
    (flipMat : Nat → Nat → (Nat → Nat → ℚ) → Nat → Nat → ℚ)
    (vertices : Nat → Nat → ℚ) (g : ElementGroup) (gf : Nat → Bool)
    (ng : ElementGroup)
    (h : flip_simplex_element_group flipMat vertices g gf = .ok ng) :
    ng.nelements = g.nelements ∧
    ∃ ng2, flip_simplex_element_group flipMat vertices ng gf = .ok ng2 ∧
      ng2.nelements = g.nelements ∧
      ∀ d e i, i < g.nunit → ng2.nodes d e i = g.nodes d e i := by
  obtain ⟨hs, hinv⟩ := flip_succeeded_simplex flipMat vertices g gf ng h
  obtain ⟨ng', hflip, hord, hdim, hnel, hnunit, hun, hsx, hnodes⟩ :=
    flip_on_simplex_ok flipMat vertices g gf hs hinv
  rw [h] at hflip
  injection hflip with hflip
  subst hflip
  have hs2 : ng.isSimplex = true := hsx.trans hs
  have hinv2 : isInvolutory ng.nunit
      (flipMat ng.dim ng.order ng.unit_nodes) := by
    rw [hnunit, hdim, hord, hun]
    exact hinv
  obtain ⟨ng2, hflip2, hord2, hdim2, hnel2, hnunit2, hun2, hsx2, hnodes2⟩ :=
    flip_on_simplex_ok flipMat vertices ng gf hs2 hinv2
  refine ⟨hnel, ng2, hflip2, hnel2.trans hnel, ?_⟩
  intro d e i hi
  rw [hnodes2 d e i]
  cases hef : gf e with
  | false =>
    simp only [hef, Bool.false_eq_true, if_false]
    rw [hnodes d e i]
    simp only [hef, Bool.false_eq_true, if_false]
  | true =>
    simp only [hef, if_true]
    rw [hnunit, hdim, hord, hun]
    have hinner : ∀ j ∈ Finset.range g.nunit,
        flipMat g.dim g.order g.unit_nodes i j * ng.nodes d e j =
        flipMat g.dim g.order g.unit_nodes i j *
          (∑ k ∈ Finset.range g.nunit,
            flipMat g.dim g.order g.unit_nodes j k * g.nodes d e k) := by
      intro j _
      rw [hnodes d e j]
      simp only [hef, if_true]
    rw [Finset.sum_congr rfl hinner]
    exact involutory_double_apply g.nunit _ hinv (fun k => g.nodes d e k) i hi

/-- Per-group restoration relation for the double flip: element count kept,
node coordinates restored within the node extent. -/
def flipRestores (g g2 : ElementGroup) : Prop :=
  g2.nelements = g.nelements ∧
  ∀ d e i, i < g.nunit → g2.nodes d e i = g.nodes d e i

theorem performFlipsGo_twice
    (flipMat : Nat → Nat → (Nat → Nat → ℚ) → Nat → Nat → ℚ)
    (v : Nat → Nat → ℚ) (flags : Nat → Bool) :
    ∀ (gs : List ElementGroup) (b : Nat) (ngs : List ElementGroup),
    performFlipsGo flipMat v flags (groupsWithElementBases b gs) = .ok ngs →
    ∃ ngs2, performFlipsGo flipMat v flags (groupsWithElementBases b ngs) = .ok ngs2 ∧
      List.Forall₂ flipRestores gs ngs2 := by
  intro gs
  induction gs with
  | nil =>
    intro b ngs h
    simp only [groupsWithElementBases, performFlipsGo] at h
    injection h with h
    subst h
    exact ⟨[], rfl, List.Forall₂.nil⟩
  | cons g gsr ih =>
    intro b ngs h
    simp only [groupsWithElementBases, performFlipsGo] at h
    cases hA : (List.range g.nelements).any (fun e => flags (b + e)) with
    | false =>
      rw [hA] at h
      simp only [Bool.false_eq_true, if_false] at h
      cases hrec : performFlipsGo flipMat v flags
          (groupsWithElementBases (b + g.nelements) gsr) with
      | error e => rw [hrec] at h; exact absurd h (by simp)
      | ok ngsr =>
        rw [hrec] at h
        dsimp only at h
        injection h with h
        subst h
        obtain ⟨ngs2r, hgo2, hF⟩ := ih (b + g.nelements) ngsr hrec
        refine ⟨g :: ngs2r, ?_, List.Forall₂.cons ⟨rfl, fun _ _ _ _ => rfl⟩ hF⟩
        simp only [groupsWithElementBases, performFlipsGo]
        rw [hA]
        simp only [Bool.false_eq_true, if_false]
        rw [hgo2]
    | true =>
      rw [hA] at h
      simp only [if_true] at h
      cases hflip : flip_simplex_element_group flipMat v g
          (fun e => decide (e < g.nelements) && flags (b + e)) with
      | error e => rw [hflip] at h; exact absurd h (by simp)
      | ok ng =>
        rw [hflip] at h
        dsimp only at h
        cases hrec : performFlipsGo flipMat v flags
            (groupsWithElementBases (b + g.nelements) gsr) with
        | error e => rw [hrec] at h; exact absurd h (by simp)
        | ok ngsr =>
          rw [hrec] at h
          dsimp only at h
          injection h with h
          subst h
          obtain ⟨hnel, ng2, hflip2, hnel2, hrest⟩ :=
            flip_twice_restores flipMat v g
              (fun e => decide (e < g.nelements) && flags (b + e)) ng hflip
          obtain ⟨ngs2r, hgo2, hF⟩ := ih (b + g.nelements) ngsr hrec
          refine ⟨ng2 :: ngs2r, ?_, List.Forall₂.cons ⟨hnel2, hrest⟩ hF⟩
          simp only [groupsWithElementBases, performFlipsGo]
          simp only [hnel]
          rw [hA]
          simp only [if_true]
          rw [hflip2]
          dsimp only
          rw [hgo2]

/-- CLAIM C1: if perform_flips succeeds on a mesh (so every flip matrix
passed its involution assert), then applying perform_flips again with the
same mask succeeds and restores every group's physical node coordinates
exactly (hence within any floating tolerance); over exact arithmetic the
involution assert makes the flip matrix an involution, and applying it twice
is the identity. -/
theorem C1_perform_flips_involution
    (flipMat : Nat → Nat → (Nat → Nat → ℚ) → Nat → Nat → ℚ)
    (mesh : Mesh) (flags : Nat → Bool) (mesh1 : Mesh)
    (h1 : perform_flips flipMat mesh flags = .ok mesh1) :
    ∃ mesh2, perform_flips flipMat mesh1 flags = .ok mesh2 ∧
      mesh2.groups.length = mesh.groups.length ∧
      ∀ (k : Nat) (hk : k < mesh.groups.length) (hk2 : k < mesh2.groups.length),
        ∀ d e i, i < (mesh.groups.get ⟨k, hk⟩).nunit →
          (mesh2.groups.get ⟨k, hk2⟩).nodes d e i =
            (mesh.groups.get ⟨k, hk⟩).nodes d e i := by
  unfold perform_flips at h1
  cases hgo : performFlipsGo flipMat mesh.vertices flags
      (groupsWithElementBases 0 mesh.groups) with
  | error e => rw [hgo] at h1; exact absurd h1 (by simp)
  | ok ngs =>
    rw [hgo] at h1
    dsimp only at h1
    injection h1 with h1
    obtain ⟨ngs2, hgo2, hF⟩ :=
      performFlipsGo_twice flipMat mesh.vertices flags mesh.groups 0 ngs hgo
    refine ⟨{ mesh with groups := ngs2 }, ?_, ?_, ?_⟩
    · subst h1
      unfold perform_flips
      dsimp only
      rw [hgo2]
    · exact hF.length_eq.symm
    · intro k hk hk2 d e i hi
      exact (hF.get hk hk2).2 d e i hi

/-- The identity matrix over ℚ. -/
def idMatQ : Nat → Nat → ℚ := fun i j => if i = j then 1 else 0

/-- A flip-matrix builder returning the identity (an involutory matrix). -/
def flipMatId : Nat → Nat → (Nat → Nat → ℚ) → Nat → Nat → ℚ := fun _ _ _ => idMatQ

/-- A one-element, one-node simplex group. -/
def gF : ElementGroup :=
  ⟨1, 1, 1, 2, 1, fun e s => e + s, fun _ _ _ => 1, fun _ _ => 0, true⟩

/-- A single-group mesh over gF. -/
def meshF : Mesh := ⟨1, 2, fun _ _ => 0, [gF]⟩

/-- The group produced by flipping gF with an all-true mask restricted to its
element window at base 0. -/
def gFflip : ElementGroup :=
  { gF with
    vertex_indices := fun e s =>
      if (fun e => decide (e < gF.nelements) && (fun _ => true) (0 + e)) e then
        if s = 0 then gF.vertex_indices e 1
        else if s = 1 then gF.vertex_indices e 0
        else gF.vertex_indices e s
      else gF.vertex_indices e s,
    nodes := fun d e i =>
      if (fun e => decide (e < gF.nelements) && (fun _ => true) (0 + e)) e then
        ∑ j ∈ Finset.range gF.nunit,
          flipMatId gF.dim gF.order gF.unit_nodes i j * gF.nodes d e j
      else gF.nodes d e i }

/-- The mesh produced by the first perform_flips on meshF. -/
def mesh1F : Mesh := { meshF with groups := [gFflip] }

theorem idMatQ_involutoryB : isInvolutoryB 1 idMatQ = true := by
  unfold isInvolutoryB
  rw [show List.range 1 = [0] from rfl]
  norm_num [idMatQ]

theorem perform_flips_meshF :
    perform_flips flipMatId meshF (fun _ => true) = .ok mesh1F := by
  unfold perform_flips
  show (match performFlipsGo flipMatId meshF.vertices (fun _ => true)
      [(0, gF)] with
    | Except.error e => (Except.error e : Except String Mesh)
    | Except.ok gs => Except.ok { meshF with groups := gs }) = Except.ok mesh1F
  simp only [performFlipsGo]
  rw [show (List.range gF.nelements).any (fun e => (fun _ : Nat => true) (0 + e))
      = true from rfl]
  simp only [if_true]
  unfold flip_simplex_element_group
  rw [if_pos (show gF.isSimplex = true from rfl)]
  rw [if_pos (show isInvolutoryB gF.nunit
      (flipMatId gF.dim gF.order gF.unit_nodes) = true from idMatQ_involutoryB)]
  rfl

/-- Witness for C1 at a concrete mesh, mask and flip-matrix builder. -/
theorem C1_perform_flips_involution_witness :
    perform_flips flipMatId meshF (fun _ => true) = .ok mesh1F ∧
    (perform_flips flipMatId mesh1F (fun _ => true)).toOption.isSome = true := by
  refine ⟨perform_flips_meshF, ?_⟩
  obtain ⟨mesh2, hm2, -, -⟩ :=
    C1_perform_flips_involution flipMatId meshF (fun _ => true) mesh1F
      perform_flips_meshF
  rw [hm2]
  rfl

/-- An all-false flip mask. -/
def flagsFalse : Nat → Bool := fun _ => false

/-- The group produced by flipping gF with the all-false mask. -/
def gFnoflip : ElementGroup :=
  { gF with
    vertex_indices := fun e s =>
      if flagsFalse e then
        if s = 0 then gF.vertex_indices e 1
        else if s = 1 then gF.vertex_indices e 0
        else gF.vertex_indices e s
      else gF.vertex_indices e s,
    nodes := fun d e i =>
      if flagsFalse e then
        ∑ j ∈ Finset.range gF.nunit,
          flipMatId gF.dim gF.order gF.unit_nodes i j * gF.nodes d e j
      else gF.nodes d e i }

theorem flip_gF_noflip :
    flip_simplex_element_group flipMatId (fun _ _ => 0) gF flagsFalse =
      .ok gFnoflip := by
  unfold flip_simplex_element_group
  rw [if_pos (show gF.isSimplex = true from rfl)]
  rw [if_pos (show isInvolutoryB gF.nunit
      (flipMatId gF.dim gF.order gF.unit_nodes) = true from idMatQ_involutoryB)]
  rfl

/-- Witness for C8 at a concrete group and mask. -/
theorem C8_flip_frame_effect_witness :
    flip_simplex_element_group flipMatId (fun _ _ => 0) gF flagsFalse =
      .ok gFnoflip ∧
    gFnoflip.order = gF.order :=
  ⟨flip_gF_noflip,
   (C8_flip_frame_effect flipMatId (fun _ _ => 0) gF flagsFalse gFnoflip
     flip_gF_noflip).2.1⟩

/- ===== Cached derived arrays (Discretization.nodes / quad_weights) ===== -/

/-- Write vals into [base, base + n) of a rational-valued global array. -/
def writeWindowQ (result : Nat → ℚ) (base n : Nat) (vals : Nat → ℚ) : Nat → ℚ :=
  fun k => if base ≤ k ∧ k < base + n then vals (k - base) else result k

/-- The quad_weights loop: per group, broadcast its per-node weight vector
(weights, external quadrature data) over the elements of its window of a
fresh (uninitialized, modelled 0) global buffer; within the window, flat
offset k addresses element k / nunit, local node k % nunit. -/
def quad_weights_compute (weights : DiscrGroup → Nat → ℚ)
    (d : Discretization) : Nat → ℚ :=
  d.groups.foldl
    (fun res g =>
      writeWindowQ res g.node_nr_base g.nnodes
        (fun k => weights g (k % g.nunitNodes)))
    (fun _ => 0)

/-- The nodes loop: per group, apply its resampling matrix (resamp, external
basis data) to the mesh group nodes and write into the group's window of a
fresh (ambient, nnodes) buffer. -/
def nodes_compute (resamp : DiscrGroup → Nat → Nat → ℚ)
    (d : Discretization) : Nat → Nat → ℚ :=
  d.groups.foldl
    (fun res g => fun dim k =>
      if g.node_nr_base ≤ k ∧ k < g.node_nr_base + g.nnodes then
        ∑ j ∈ Finset.range g.meshElGroup.nunit,
          resamp g ((k - g.node_nr_base) % g.nunitNodes) j *
            g.meshElGroup.nodes dim ((k - g.node_nr_base) / g.nunitNodes) j
      else res dim k)
    (fun _ _ => 0)

/-- The runtime state of one Discretization instance: the instance data plus
the @memoize_method storage of nodes().  quad_weights has no such storage:
the source attaches no memoization to it (only its inner loopy kernel is
memoized, which caches no array). -/
structure DiscrCacheState where
  disc : Discretization
  nodesCache : Option (Nat → Nat → ℚ)

/-- A call to nodes(): on a cache hit, return the stored array and leave the
state unchanged; on a miss, compute, store and return.  The Bool reports
whether the computation ran during this call. -/
def nodesCall (resamp : DiscrGroup → Nat → Nat → ℚ) (s : DiscrCacheState) :
    (Nat → Nat → ℚ) × DiscrCacheState × Bool :=
  match s.nodesCache with
  | some a => (a, s, false)
  | none =>
    (nodes_compute resamp s.disc,
     { s with nodesCache := some (nodes_compute resamp s.disc) }, true)

/-- A call to quad_weights(): rebuilds the result array every time and never
touches any cache. -/
def quadWeightsCall (weights : DiscrGroup → Nat → ℚ) (s : DiscrCacheState) :
    (Nat → ℚ) × DiscrCacheState × Bool :=
  (quad_weights_compute weights s.disc, s, true)

/-- Counterexample to CLAIM C5: on a concrete instance the second call to
quad_weights runs the computation again (flag true), so the quadrature-weight
array is not computed at most once per instance; the nodes cache, by
contrast, is hit (flag false) on the second call. -/
theorem C5_cache_counterexample :
    (quadWeightsCall (fun _ _ => 1)
      (quadWeightsCall (fun _ _ => 1) ⟨sampleDiscr, none⟩).2.1).2.2 = true ∧
    (nodesCall (fun _ _ _ => 1)
      (nodesCall (fun _ _ _ => 1) ⟨sampleDiscr, none⟩).2.1).2.2 = false := by
  constructor <;> rfl

/-- CLAIM C5 amended: nodes() is computed at most once per instance — the
first call computes and stores, every later call returns the stored array
without recomputation; quad_weights() has no result cache and recomputes its
array on every call, leaving the state unchanged. -/
theorem C5_caching (resamp : DiscrGroup → Nat → Nat → ℚ)
    (weights : DiscrGroup → Nat → ℚ) (s0 : DiscrCacheState)
    (h0 : s0.nodesCache = none) :
    (nodesCall resamp s0).2.2 = true ∧
    (nodesCall resamp (nodesCall resamp s0).2.1).1 = (nodesCall resamp s0).1 ∧
    (nodesCall resamp (nodesCall resamp s0).2.1).2.1 = (nodesCall resamp s0).2.1 ∧
    (nodesCall resamp (nodesCall resamp s0).2.1).2.2 = false ∧
    (∀ s : DiscrCacheState, (quadWeightsCall weights s).2.2 = true ∧
      (quadWeightsCall weights s).2.1 = s) := by
  obtain ⟨dsc, cache⟩ := s0
  simp only at h0
  subst h0
  refine ⟨rfl, rfl, rfl, rfl, fun s => ⟨rfl, rfl⟩⟩

/-- Witness for C5 amended at a concrete fresh instance. -/
theorem C5_caching_witness :
    (DiscrCacheState.mk sampleDiscr none).nodesCache = none ∧
    (nodesCall (fun _ _ _ => 1) ⟨sampleDiscr, none⟩).2.2 = true :=
  ⟨rfl, (C5_caching (fun _ _ _ => 1) (fun _ _ => 1) ⟨sampleDiscr, none⟩ rfl).1⟩

/- ===== Gmsh receiver group selection (meshmode/mesh/io.py) ===== -/

/-- A gmsh element type as the receiver sees it: its reference dimension,
order and per-element node count. -/
structure GmshElementType where
  dimensions : Nat
  order : Nat
  node_count : Nat
deriving DecidableEq

/-- The key list of el_type_hist: each received element type once, in first
occurrence order. -/
def dedupFirst : List GmshElementType → List GmshElementType
  | [] => []
  | t :: ts => t :: (dedupFirst ts).filter (· ≠ t)

/-- The multiplicity of an element type among the received elements
(el_type_hist value). -/
def countElType (ets : List GmshElementType) (t : GmshElementType) : Nat :=
  (ets.filter (· = t)).length

/-- mesh_bulk_dim: the maximum dimension occurring among the received
element types. -/
def mesh_bulk_dim (ets : List GmshElementType) : Nat :=
  (ets.map (·.dimensions)).foldr max 0

/-- The per-group assembly loop of get_mesh over the kept (bulk-dimension)
element types.  lastCount is the node count of the stale loop variable
el_type at io.py:135 — the type of the LAST received element, left over from
the preceding per-element zip loops — with which every group's nodes buffer
is sized instead of group_el_type.node_count().  Filling the first node row
of a group (nodes[:, i] = points[el_nodes].T, an (ambient, node_count)
source) therefore raises a numpy broadcast ValueError whenever the group
type's node count differs from lastCount; every kept group has at least one
element, so the mismatch always fires.  On a match the group is appended
with its element count and the loop continues. -/
def gmshGroupsGo (lastCount : Nat) (ets : List GmshElementType) :
    List GmshElementType → Except String (List (GmshElementType × Nat))
  | [] => .ok []
  | t :: ts =>
    if t.node_count = lastCount then
      match gmshGroupsGo lastCount ets ts with
      | .error e => .error e
      | .ok rest => .ok ((t, countElType ets t) :: rest)
    else
      .error "could not broadcast input array"

/-- GmshMeshReceiver.get_mesh at the group level: error on an empty element
stream (max() over the type histogram); otherwise run the assembly loop over
the histogram keys whose dimension equals mesh_bulk_dim (the others are
skipped by the continue), sizing every nodes buffer with the stale
last-element type. -/
def get_mesh (ets : List GmshElementType) :
    Except String (List (GmshElementType × Nat)) :=
  match ets.getLast? with
  | none => .error "max() arg is an empty sequence"
  | some lastType =>
    gmshGroupsGo lastType.node_count ets
      ((dedupFirst ets).filter (fun t => t.dimensions == mesh_bulk_dim ets))

theorem mem_dedupFirst (a : GmshElementType) :
    ∀ l : List GmshElementType, a ∈ dedupFirst l ↔ a ∈ l := by
  intro l
  induction l with
  | nil => simp [dedupFirst]
  | cons t ts ih =>
    simp only [dedupFirst, List.mem_cons, List.mem_filter]
    constructor
    · intro h
      rcases h with h | ⟨h1, _⟩
      · exact Or.inl h
      · exact Or.inr (ih.mp h1)
    · intro h
      rcases h with h | h
      · exact Or.inl h
      · by_cases hat : a = t
        · exact Or.inl hat
        · exact Or.inr ⟨ih.mpr h, by simpa using hat⟩

theorem mesh_bulk_dim_attained :
    ∀ ets : List GmshElementType, ets ≠ [] →
    ∃ t ∈ ets, t.dimensions = mesh_bulk_dim ets := by
  intro ets
  induction ets with
  | nil => intro h; exact absurd rfl h
  | cons t ts ih =>
    intro _
    cases hts : ts with
    | nil =>
      refine ⟨t, by simp, ?_⟩
      simp [mesh_bulk_dim]
    | cons t2 ts2 =>
      rw [← hts]
      have hne : ts ≠ [] := by rw [hts]; simp
      obtain ⟨u, hu, hud⟩ := ih hne
      have hbulk : mesh_bulk_dim (t :: ts) = max t.dimensions (mesh_bulk_dim ts) := by
        simp [mesh_bulk_dim]
      rcases Nat.le_total t.dimensions (mesh_bulk_dim ts) with hle | hge
      · refine ⟨u, List.mem_cons_of_mem t hu, ?_⟩
        rw [hbulk, Nat.max_eq_right hle, hud]
      · refine ⟨t, List.mem_cons_self t ts, ?_⟩
        rw [hbulk, Nat.max_eq_left hge]

theorem gmshGroupsGo_ok (lastCount : Nat) (ets : List GmshElementType) :
    ∀ (l : List GmshElementType) (gs : List (GmshElementType × Nat)),
    gmshGroupsGo lastCount ets l = .ok gs →
    gs = l.map (fun t => (t, countElType ets t)) := by
  intro l
  induction l with
  | nil =>
    intro gs h
    simp only [gmshGroupsGo] at h
    injection h with h
    rw [← h]
    rfl
  | cons t ts ih =>
    intro gs h
    simp only [gmshGroupsGo] at h
    by_cases hc : t.node_count = lastCount
    · rw [if_pos hc] at h
      cases hr : gmshGroupsGo lastCount ets ts with
      | error e => rw [hr] at h; exact absurd h (by simp)
      | ok rest =>
        rw [hr] at h
        dsimp only at h
        injection h with h
        rw [← h, ih rest hr]
        rfl
    · rw [if_neg hc] at h
      exact absurd h (by simp)

/-- On the success path (every kept type's node count equals the last
received element's, so no broadcast error fires), the groups get_mesh
returns are exactly the bulk-dimension types: every emitted group has the
bulk dimension, lower-dimensional types contribute no group, and every
received bulk-dimension type contributes its group with its element count. -/
theorem get_mesh_ok_groups (ets : List GmshElementType)
    (gs : List (GmshElementType × Nat)) (h : get_mesh ets = .ok gs) :
    (∀ p ∈ gs, p.1.dimensions = mesh_bulk_dim ets) ∧
    (∀ t ∈ ets, t.dimensions ≠ mesh_bulk_dim ets → ∀ c : Nat, (t, c) ∉ gs) ∧
    (∀ t ∈ ets, t.dimensions = mesh_bulk_dim ets →
      (t, countElType ets t) ∈ gs) := by
  unfold get_mesh at h
  cases hl : ets.getLast? with
  | none => rw [hl] at h; exact absurd h (by simp)
  | some lastType =>
    rw [hl] at h
    dsimp only at h
    have hmap := gmshGroupsGo_ok lastType.node_count ets
      ((dedupFirst ets).filter (fun t => t.dimensions == mesh_bulk_dim ets)) gs h
    subst hmap
    refine ⟨?_, ?_, ?_⟩
    · intro p hp
      rw [List.mem_map] at hp
      obtain ⟨t, ht, hpt⟩ := hp
      rw [List.mem_filter] at ht
      rw [← hpt]
      simpa using ht.2
    · intro t _ hd c hmem
      rw [List.mem_map] at hmem
      obtain ⟨u, hu, hut⟩ := hmem
      rw [List.mem_filter] at hu
      have : u = t := congrArg Prod.fst hut
      rw [this] at hu
      exact hd (by simpa using hu.2)
    · intro t ht hd
      rw [List.mem_map]
      refine ⟨t, ?_, rfl⟩
      rw [List.mem_filter]
      exact ⟨(mem_dedupFirst t ets).mpr ht, by simp [hd]⟩

/-- CLAIM C10, failing input: the element stream [triangle-like type
(dim 2, order 1, 3 nodes), line-like type (dim 1, order 1, 2 nodes)].  The
bulk dimension is 2, so the claim demands that the line group be silently
discarded and the triangle group appear in a returned Mesh; instead the
triangle group's nodes buffer is sized with the stale el_type binding
(io.py:135) — the 2-node line, the last received element — and the first
node-row assignment raises a broadcast ValueError, so get_mesh returns no
Mesh at all. -/
theorem C10_gmsh_stale_eltype_bug :
    mesh_bulk_dim [⟨2, 1, 3⟩, ⟨1, 1, 2⟩] = 2 ∧
    (⟨2, 1, 3⟩ : GmshElementType).dimensions = 2 ∧
    (⟨1, 1, 2⟩ : GmshElementType).dimensions ≠ 2 ∧
    get_mesh [⟨2, 1, 3⟩, ⟨1, 1, 2⟩] =
      .error "could not broadcast input array" := by
  refine ⟨rfl, rfl, by decide, rfl⟩

end Meshmode
